import Mathlib

set_option maxHeartbeats 1000000

/- Shallow embedding of the project resolution engine of the pop repository:
   the glob cache and path expansion (config package), path set reduction,
   name disambiguation (project package), recency ranking (history package)
   and session unification (cmd package). Go maps are modelled as
   association lists, filesystem access as explicit function parameters,
   and time.Time values as integer timestamps. -/

/-- Model of Go strings.HasPrefix: true when the second argument is a
leading substring of the first. -/
def strStartsWith (s pre : String) : Bool := pre.data.isPrefixOf s.data

/-- ProjectEntry from config.go: a configured pattern with a display depth. -/
structure ProjectEntry where
  path : String
  displayDepth : Int
deriving Repr, DecidableEq

/-- GetDisplayDepth from config.go: returns 1 when DisplayDepth is not
strictly positive, otherwise the stored value. -/
def ProjectEntry.GetDisplayDepth (p : ProjectEntry) : Int :=
  if p.displayDepth ≤ 0 then 1 else p.displayDepth

/-- ExpandedPath from config.go: a resolved project path with its display depth. -/
structure ExpandedPath where
  path : String
  displayDepth : Int
deriving Repr, DecidableEq

/-- removeSubsumedPaths from config.go: a path p is dropped when some other
path q in the list has q.Path starting with p.Path followed by a slash;
the survivors keep their original order. The Go code first collects the
subsumed path strings in a set and then filters; since the mark depends
only on p.Path, this is the same as filtering directly. -/
def removeSubsumedPaths (paths : List ExpandedPath) : List ExpandedPath :=
  paths.filter fun p =>
    !(paths.any fun q => p.path != q.path && strStartsWith q.path (p.path ++ "/"))

/-- Result of an os.Stat call: directory flag and modification time. -/
structure FileInfo where
  isDir : Bool
  modTime : Int
deriving Repr, DecidableEq

/-- GlobCacheEntry from the config package: cached matches for one pattern
together with the recorded directory mtimes (a Go map, modelled as an
association list). The Go field Matches is rendered as matchList because
the word is reserved in Lean. -/
structure GlobCacheEntry where
  basePath : String
  matchList : List String
  dirMtimes : List (String × Int)
deriving Repr, DecidableEq

/-- isCacheEntryValid from the config package: every recorded directory must
still stat successfully and report exactly the recorded mtime. -/
def isCacheEntryValid (stat : String → Option FileInfo) (entry : GlobCacheEntry) : Bool :=
  entry.dirMtimes.all fun p =>
    match stat p.1 with
    | none => false
    | some info => info.modTime == p.2

/-- GlobCache from the config package. The entries field is an Option so
that a Go nil map (as json.Unmarshal can leave it) is distinguishable from
an empty one. -/
structure GlobCache where
  version : Int
  entries : Option (List (String × GlobCacheEntry))
deriving Repr, DecidableEq

/-- loadGlobCache from the config package. The file read is modelled by an
Option String (none is a read error) and json.Unmarshal by a parse
parameter (none is a parse error). Any failure, and any version other
than 1, yields a fresh empty version-1 cache; a nil entries map in a
well-formed file is replaced by an empty one. -/
def loadGlobCache (parse : String → Option GlobCache) (readResult : Option String) : GlobCache :=
  let cache : GlobCache := { version := 1, entries := some [] }
  match readResult with
  | none => cache
  | some data =>
    match parse data with
    | none => cache
    | some loaded =>
      if loaded.version != 1 then cache
      else
        match loaded.entries with
        | none => { loaded with entries := some [] }
        | some _ => loaded

/-- C10: GetDisplayDepth returns the stored DisplayDepth when it is strictly
positive and returns 1 for every DisplayDepth less than or equal to 0,
negative values included. -/
theorem getDisplayDepth_normalizes (p : ProjectEntry) :
    (0 < p.displayDepth → p.GetDisplayDepth = p.displayDepth) ∧
    (p.displayDepth ≤ 0 → p.GetDisplayDepth = 1) := by
  constructor <;> intro h <;> simp only [ProjectEntry.GetDisplayDepth] <;> split <;> omega

/-- Witness for C10 at a negative and at a positive depth. -/
theorem getDisplayDepth_normalizes_witness :
    ProjectEntry.GetDisplayDepth ⟨"/p", -3⟩ = 1 ∧
    ProjectEntry.GetDisplayDepth ⟨"/p", 2⟩ = 2 :=
  ⟨(getDisplayDepth_normalizes ⟨"/p", -3⟩).2 (by decide),
   (getDisplayDepth_normalizes ⟨"/p", 2⟩).1 (by decide)⟩

/-- Helper: a string that starts with p followed by a slash is different from p. -/
theorem strStartsWith_slash_ne (p q : String) (h : strStartsWith q (p ++ "/") = true) : q ≠ p := by
  rw [strStartsWith, List.isPrefixOf_iff_prefix] at h
  have hl := h.length_le
  simp [String.data_append] at hl
  intro he
  subst he
  omega

/-- Helper: membership characterization of removeSubsumedPaths: an element
survives iff no other input path is its strict path-descendant. -/
theorem mem_removeSubsumedPaths (paths : List ExpandedPath) (p : ExpandedPath) :
    p ∈ removeSubsumedPaths paths ↔
      p ∈ paths ∧ ¬ ∃ q, q ∈ paths ∧ q.path ≠ p.path ∧ strStartsWith q.path (p.path ++ "/") = true := by
  simp only [removeSubsumedPaths, List.mem_filter, Bool.not_eq_true', List.any_eq_false,
    Bool.and_eq_false_iff, bne_eq_false_iff_eq, Bool.not_eq_true]
  constructor
  · rintro ⟨hp, hall⟩
    refine ⟨hp, ?_⟩
    rintro ⟨q, hq, hne, hsw⟩
    rcases hall q hq with h | h
    · exact hne h.symm
    · rw [hsw] at h; cases h
  · rintro ⟨hp, hnone⟩
    refine ⟨hp, ?_⟩
    intro q hq
    by_cases he : p.path = q.path
    · exact Or.inl he
    · right
      by_cases hs : strStartsWith q.path (p.path ++ "/") = true
      · exact absurd ⟨q, hq, fun h => he h.symm, hs⟩ hnone
      · simpa using hs

/-- Helper: no surviving path of removeSubsumedPaths subsumes another survivor. -/
theorem removeSubsumedPaths_clean (paths : List ExpandedPath) :
    ∀ p ∈ removeSubsumedPaths paths, ∀ q ∈ removeSubsumedPaths paths,
      strStartsWith q.path (p.path ++ "/") = false := by
  intro p hp q hq
  rcases (mem_removeSubsumedPaths paths p).mp hp with ⟨hpin, hnone⟩
  have hqin := ((mem_removeSubsumedPaths paths q).mp hq).1
  by_cases hs : strStartsWith q.path (p.path ++ "/") = true
  · exact absurd ⟨q, hqin, strStartsWith_slash_ne _ _ hs, hs⟩ hnone
  · simpa using hs

/-- C1: the output of removeSubsumedPaths contains no pair of distinct paths
P, Q where Q starts with P followed by a slash; a path is removed exactly
when some other input path is its strict path-descendant; a mere string
prefix that is not at a path-separator boundary never triggers removal
(the /foo/bar versus /foo/barbaz example); and the surviving paths keep
their original relative order (the output is a sublist of the input). -/
theorem removeSubsumedPaths_no_subsumption (paths : List ExpandedPath) :
    (removeSubsumedPaths paths).Sublist paths ∧
    (∀ p, p ∈ paths →
      (p ∈ removeSubsumedPaths paths ↔
        ¬ ∃ q, q ∈ paths ∧ q.path ≠ p.path ∧ strStartsWith q.path (p.path ++ "/") = true)) ∧
    (∀ p, p ∈ removeSubsumedPaths paths → ∀ q, q ∈ removeSubsumedPaths paths →
      strStartsWith q.path (p.path ++ "/") = false) ∧
    removeSubsumedPaths [⟨"/foo/bar", 1⟩, ⟨"/foo/barbaz", 1⟩] =
      [⟨"/foo/bar", 1⟩, ⟨"/foo/barbaz", 1⟩] :=
  ⟨List.filter_sublist _,
   fun p hp => (mem_removeSubsumedPaths paths p).trans (and_iff_right hp),
   removeSubsumedPaths_clean paths,
   by decide⟩

/-- Witness for C1: the ancestor /a is removed when its descendant /a/b is present. -/
theorem removeSubsumedPaths_no_subsumption_witness :
    (⟨"/a", 1⟩ : ExpandedPath) ∉ removeSubsumedPaths [⟨"/a", 1⟩, ⟨"/a/b", 1⟩] := by
  have h := (removeSubsumedPaths_no_subsumption [⟨"/a", 1⟩, ⟨"/a/b", 1⟩]).2.1 ⟨"/a", 1⟩ (by decide)
  intro hin
  exact (h.mp hin) ⟨⟨"/a/b", 1⟩, by decide, by decide, by decide⟩

/-- C2: isCacheEntryValid is true iff every recorded (dir, mtime) pair still
stats successfully and reports exactly the recorded modification time; an
entry with an empty dirMtimes map is always valid. -/
theorem isCacheEntryValid_iff (stat : String → Option FileInfo) (entry : GlobCacheEntry) :
    (isCacheEntryValid stat entry = true ↔
      ∀ p ∈ entry.dirMtimes, ∃ info, stat p.1 = some info ∧ info.modTime = p.2) ∧
    (entry.dirMtimes = [] → isCacheEntryValid stat entry = true) := by
  constructor
  · rw [isCacheEntryValid, List.all_eq_true]
    constructor
    · intro h p hp
      have hx := h p hp
      cases hstat : stat p.1 with
      | none => rw [hstat] at hx; cases hx
      | some info =>
        rw [hstat] at hx
        simp only [beq_iff_eq] at hx
        exact ⟨info, rfl, hx⟩
    · intro h p hp
      obtain ⟨info, hs, hm⟩ := h p hp
      rw [hs]
      simp [hm]
  · intro h
    rw [isCacheEntryValid, h]
    rfl

/-- Concrete stat function used by the C2 witness: one known directory. -/
def statC2 : String → Option FileInfo := fun p => if p = "/d1" then some ⟨true, 5⟩ else none

/-- Witness for C2: an empty map is valid, a matching map is valid, and a
missing directory makes the entry invalid. -/
theorem isCacheEntryValid_iff_witness :
    isCacheEntryValid statC2 ⟨"/b", [], []⟩ = true ∧
    isCacheEntryValid statC2 ⟨"/b", [], [("/d1", 5)]⟩ = true ∧
    isCacheEntryValid statC2 ⟨"/b", [], [("/gone", 5)]⟩ = false := by
  refine ⟨(isCacheEntryValid_iff statC2 _).2 rfl, ((isCacheEntryValid_iff statC2 _).1).mpr ?_, ?_⟩
  · intro p hp
    simp only [List.mem_singleton] at hp
    subst hp
    exact ⟨⟨true, 5⟩, rfl, rfl⟩
  · rw [Bool.eq_false_iff]
    intro h
    obtain ⟨info, hs, _⟩ :=
      ((isCacheEntryValid_iff statC2 ⟨"/b", [], [("/gone", 5)]⟩).1).mp h ("/gone", 5)
        (by simp)
    simp [statC2] at hs

/-- C7: loadGlobCache never fails: a read error, an unparsable file, or a
version other than 1 each yield the empty version-1 cache with a non-nil
empty entries map; only a well-formed version-1 file yields its stored
entries (a nil map in such a file is normalized to an empty one); and for
every input the result has version 1 and a non-nil entries map. -/
theorem loadGlobCache_total (parse : String → Option GlobCache) :
    (loadGlobCache parse none = ⟨1, some []⟩) ∧
    (∀ s, parse s = none → loadGlobCache parse (some s) = ⟨1, some []⟩) ∧
    (∀ s c, parse s = some c → c.version ≠ 1 → loadGlobCache parse (some s) = ⟨1, some []⟩) ∧
    (∀ s c l, parse s = some c → c.version = 1 → c.entries = some l →
      loadGlobCache parse (some s) = c) ∧
    (∀ s c, parse s = some c → c.version = 1 → c.entries = none →
      loadGlobCache parse (some s) = ⟨1, some []⟩) ∧
    (∀ rr, (loadGlobCache parse rr).version = 1 ∧ (loadGlobCache parse rr).entries ≠ none) := by
  refine ⟨rfl, ?_, ?_, ?_, ?_, ?_⟩
  · intro s hs
    simp [loadGlobCache, hs]
  · intro s c hc hv
    simp [loadGlobCache, hc, hv]
  · intro s c l hc hv hl
    simp [loadGlobCache, hc, hv, hl]
  · intro s c hc hv he
    simp [loadGlobCache, hc, hv, he]
  · intro rr
    cases rr with
    | none => exact ⟨rfl, by simp [loadGlobCache]⟩
    | some s =>
      simp only [loadGlobCache]
      cases hp : parse s with
      | none => simp
      | some c =>
        by_cases hv : c.version = 1
        · simp only [hv, bne_self_eq_false, Bool.false_eq_true, if_false]
          cases he : c.entries <;> simp [hv, he]
        · simp [hv, bne_iff_ne]

/-- Concrete parse function used by the C7 witness. -/
def parseC7 : String → Option GlobCache := fun s =>
  if s = "v1" then some ⟨1, some [("/p", ⟨"/p", ["/p/a"], []⟩)]⟩
  else if s = "v99" then some ⟨99, some []⟩
  else if s = "v1nil" then some ⟨1, none⟩
  else none

/-- Witness for C7: unparsable content, a wrong version, a nil entries map
and a well-formed file each load as the claim states. -/
theorem loadGlobCache_total_witness :
    loadGlobCache parseC7 (some "junk") = ⟨1, some []⟩ ∧
    loadGlobCache parseC7 (some "v99") = ⟨1, some []⟩ ∧
    loadGlobCache parseC7 (some "v1nil") = ⟨1, some []⟩ ∧
    loadGlobCache parseC7 (some "v1") = ⟨1, some [("/p", ⟨"/p", ["/p/a"], []⟩)]⟩ :=
  ⟨(loadGlobCache_total parseC7).2.1 "junk" (by decide),
   (loadGlobCache_total parseC7).2.2.1 "v99" ⟨99, some []⟩ (by decide) (by decide),
   (loadGlobCache_total parseC7).2.2.2.2.1 "v1nil" ⟨1, none⟩ (by decide) rfl rfl,
   (loadGlobCache_total parseC7).2.2.2.1 "v1" ⟨1, some [("/p", ⟨"/p", ["/p/a"], []⟩)]⟩ _
     (by decide) rfl rfl⟩

/-- The addProject closure of ExpandProjectsWith from config.go: a candidate
is kept only when its path was not seen before and currently stats as a
directory; the seen set (a Go map used as a set, modelled as a list) is
extended only when the candidate is kept. -/
def addProjects (isDirectory : String → Bool) (seen : List String) :
    List ExpandedPath → List ExpandedPath
  | [] => []
  | p :: rest =>
    if !seen.contains p.path && isDirectory p.path then
      p :: addProjects isDirectory (p.path :: seen) rest
    else
      addProjects isDirectory seen rest

/-- The PathSetReducer part of ExpandProjectsWith from config.go: the
existing-directory filter with first-seen dedup on the path, followed by
subsumption removal. -/
def reduceProjects (isDirectory : String → Bool) (paths : List ExpandedPath) : List ExpandedPath :=
  removeSubsumedPaths (addProjects isDirectory [] paths)

/-- Helper: addProjects keeps a subsequence of its input. -/
theorem addProjects_sublist (f : String → Bool) :
    ∀ (l : List ExpandedPath) (seen : List String), (addProjects f seen l).Sublist l
  | [], _ => List.Sublist.refl _
  | p :: rest, seen => by
    rw [addProjects]
    split
    · exact (addProjects_sublist f rest (p.path :: seen)).cons₂ p
    · exact (addProjects_sublist f rest seen).cons p

/-- Helper: every path kept by addProjects passes the directory check. -/
theorem addProjects_isDir (f : String → Bool) :
    ∀ (l : List ExpandedPath) (seen : List String) (p : ExpandedPath),
      p ∈ addProjects f seen l → f p.path = true
  | [], _, p, h => by cases h
  | q :: rest, seen, p, h => by
    rw [addProjects] at h
    split at h
    · rcases List.mem_cons.mp h with rfl | h'
      · rename_i hc
        exact (Bool.and_eq_true_iff.mp hc).2
      · exact addProjects_isDir f rest _ p h'
    · exact addProjects_isDir f rest seen p h

/-- Helper: addProjects output has pairwise distinct paths, none in the seen set. -/
theorem addProjects_nodup (f : String → Bool) :
    ∀ (l : List ExpandedPath) (seen : List String),
      ((addProjects f seen l).map (fun p => p.path)).Nodup ∧
      ∀ p ∈ addProjects f seen l, ¬ p.path ∈ seen
  | [], _ => ⟨List.nodup_nil, by intro p hp; cases hp⟩
  | p :: rest, seen => by
    rw [addProjects]
    split
    · rename_i hc
      have hnotseen : ¬ p.path ∈ seen := by
        have := (Bool.and_eq_true_iff.mp hc).1
        simpa using this
      obtain ⟨ih1, ih2⟩ := addProjects_nodup f rest (p.path :: seen)
      constructor
      · rw [List.map_cons, List.nodup_cons]
        refine ⟨?_, ih1⟩
        intro hmem
        obtain ⟨q, hq, hqp⟩ := List.mem_map.mp hmem
        exact (ih2 q hq) (by rw [hqp]; exact List.mem_cons_self _ _)
      · intro q hq
        rcases List.mem_cons.mp hq with rfl | hq'
        · exact hnotseen
        · intro hmem
          exact (ih2 q hq') (List.mem_cons_of_mem _ hmem)
    · obtain ⟨ih1, ih2⟩ := addProjects_nodup f rest seen
      exact ⟨ih1, ih2⟩

/-- Helper: addProjects is the identity on a list of distinct existing
directories none of which is already seen. -/
theorem addProjects_id (f : String → Bool) :
    ∀ (l : List ExpandedPath) (seen : List String),
      ((l.map (fun p => p.path)).Nodup) →
      (∀ p ∈ l, f p.path = true) →
      (∀ p ∈ l, ¬ p.path ∈ seen) →
      addProjects f seen l = l
  | [], _, _, _, _ => rfl
  | p :: rest, seen, hnd, hdir, hseen => by
    rw [addProjects]
    have hc : (!seen.contains p.path && f p.path) = true := by
      rw [Bool.and_eq_true]
      refine ⟨?_, hdir p (List.mem_cons_self _ _)⟩
      simpa using hseen p (List.mem_cons_self _ _)
    rw [if_pos hc]
    congr 1
    rw [List.map_cons, List.nodup_cons] at hnd
    refine addProjects_id f rest (p.path :: seen) hnd.2 ?_ ?_
    · intro q hq; exact hdir q (List.mem_cons_of_mem _ hq)
    · intro q hq
      intro hmem
      rcases List.mem_cons.mp hmem with he | hmem'
      · exact hnd.1 (List.mem_map.mpr ⟨q, hq, he⟩)
      · exact hseen q (List.mem_cons_of_mem _ hq) hmem'

/-- Helper: removeSubsumedPaths is the identity on a subsumption-free list. -/
theorem removeSubsumedPaths_id (l : List ExpandedPath)
    (h : ∀ p ∈ l, ∀ q ∈ l, strStartsWith q.path (p.path ++ "/") = false) :
    removeSubsumedPaths l = l := by
  rw [removeSubsumedPaths, List.filter_eq_self]
  intro p hp
  rw [Bool.not_eq_true', List.any_eq_false]
  intro q hq
  intro hcontra
  have hsw := (Bool.and_eq_true_iff.mp hcontra).2
  rw [h p hp q hq] at hsw
  cases hsw

/-- C8: the PathSetReducer pipeline (existing-directory filter, first-seen
dedup on path, subsumption removal) is idempotent, and in particular
removeSubsumedPaths applied twice equals removeSubsumedPaths applied once,
for every input list and every directory predicate. -/
theorem reduceProjects_idempotent :
    (∀ (isDirectory : String → Bool) (paths : List ExpandedPath),
        reduceProjects isDirectory (reduceProjects isDirectory paths) =
          reduceProjects isDirectory paths) ∧
    (∀ paths : List ExpandedPath,
        removeSubsumedPaths (removeSubsumedPaths paths) = removeSubsumedPaths paths) := by
  have hrem : ∀ paths : List ExpandedPath,
      removeSubsumedPaths (removeSubsumedPaths paths) = removeSubsumedPaths paths :=
    fun paths => removeSubsumedPaths_id _ (removeSubsumedPaths_clean paths)
  refine ⟨?_, hrem⟩
  intro f paths
  rw [reduceProjects, reduceProjects]
  have hsub : (removeSubsumedPaths (addProjects f [] paths)).Sublist (addProjects f [] paths) :=
    List.filter_sublist _
  have hdirs : ∀ p ∈ removeSubsumedPaths (addProjects f [] paths), f p.path = true :=
    fun p hp => addProjects_isDir f paths [] p (hsub.mem hp)
  have hnodup : ((removeSubsumedPaths (addProjects f [] paths)).map (fun p => p.path)).Nodup :=
    List.Nodup.sublist (hsub.map _) (addProjects_nodup f paths []).1
  have hid : addProjects f [] (removeSubsumedPaths (addProjects f [] paths)) =
      removeSubsumedPaths (addProjects f [] paths) :=
    addProjects_id f _ [] hnodup hdirs (by intro p hp; simp)
  rw [hid]
  exact removeSubsumedPaths_id _ (removeSubsumedPaths_clean _)


/-- Model of the Go string comparison a < b: lexicographic order on the
character sequence. -/
def charListLt : List Char → List Char → Bool
  | [], [] => false
  | [], _ :: _ => true
  | _ :: _, [] => false
  | a :: as, b :: bs =>
    if a < b then true
    else if b < a then false
    else charListLt as bs

/-- Go string comparison lifted to String. -/
def strLt (a b : String) : Bool := charListLt a.data b.data

/-- Helper: the complement of the lexicographic order is transitive. -/
theorem charListLt_le_trans :
    ∀ (a b c : List Char), charListLt b a = false → charListLt c b = false →
      charListLt c a = false := by
  intro a
  induction a with
  | nil =>
    intro b c h1 h2
    cases c with
    | nil => rfl
    | cons z zs => rfl
  | cons x xs ih =>
    intro b c h1 h2
    cases c with
    | nil =>
      cases b with
      | nil => simp [charListLt] at h1
      | cons y ys => simp [charListLt] at h2
    | cons z zs =>
      cases b with
      | nil => simp [charListLt] at h1
      | cons y ys =>
        simp only [charListLt] at h1 h2 ⊢
        by_cases h_yx : y < x
        · simp [h_yx] at h1
        · simp only [h_yx, if_false] at h1
          by_cases h_zy : z < y
          · simp [h_zy] at h2
          · simp only [h_zy, if_false] at h2
            by_cases h_zx : z < x
            · exact absurd (lt_of_lt_of_le h_zx (not_lt.mp h_yx)) h_zy
            · simp only [h_zx, if_false]
              by_cases h_xz : x < z
              · simp [h_xz]
              · simp only [h_xz, if_false]
                by_cases h_xy : x < y
                · exact absurd (lt_of_lt_of_le h_xy (not_lt.mp h_zy)) h_xz
                · simp only [h_xy, if_false] at h1
                  by_cases h_yz : y < z
                  · exact absurd (lt_of_le_of_lt (not_lt.mp h_yx) h_yz) h_xz
                  · simp only [h_yz, if_false] at h2
                    exact ih ys zs h1 h2

/-- Helper: of two lists, at least one does not come strictly first. -/
theorem charListLt_total :
    ∀ (a b : List Char), charListLt a b = false ∨ charListLt b a = false := by
  intro a
  induction a with
  | nil =>
    intro b
    cases b with
    | nil => exact Or.inl rfl
    | cons y ys => exact Or.inr rfl
  | cons x xs ih =>
    intro b
    cases b with
    | nil => exact Or.inl rfl
    | cons y ys =>
      by_cases hxy : x < y
      · right; simp [charListLt, hxy, lt_asymm hxy]
      · by_cases hyx : y < x
        · left; simp [charListLt, hxy, hyx]
        · rcases ih ys with h | h
          · left; simp [charListLt, hxy, hyx, h]
          · right; simp [charListLt, hxy, hyx, h]

/-- Project from project.go: a display name and a path. -/
structure Project where
  name : String
  path : String
deriving Repr, DecidableEq

/-- Entry from history.go: one visited path with its last access time. -/
structure HistoryEntry where
  path : String
  lastAccess : Int
deriving Repr, DecidableEq

/-- History from history.go: the persisted list of history entries. -/
structure History where
  entries : List HistoryEntry
deriving Repr, DecidableEq

/-- The accessTimes lookup built by SortByRecencyWith from history.go: the
Go code folds the entries into a map, so a later entry for the same path
overwrites an earlier one; hence the last matching entry wins. -/
def accessTime (h : History) (path : String) : Option Int :=
  (h.entries.reverse.find? (fun e => e.path == path)).map (fun e => e.lastAccess)

/-- The sort.SliceStable comparator of SortByRecencyWith from history.go:
oldest first when both are in history, unvisited before visited, and
alphabetical by name when neither is in history. -/
def lessByRecency (h : History) (a b : Project) : Bool :=
  match accessTime h a.path, accessTime h b.path with
  | some ta, some tb => decide (ta < tb)
  | some _, none => false
  | none, some _ => true
  | none, none => strLt a.name b.name

/-- The non-strict order induced by the Go less function: a may come before
b exactly when b need not come strictly before a. -/
def leByRecency (h : History) (a b : Project) : Bool := !(lessByRecency h b a)

/-- SortByRecencyWith from history.go: sort.SliceStable is modelled as the
standard stable merge sort under the induced non-strict order. -/
def SortByRecencyWith (h : History) (projects : List Project) : List Project :=
  projects.mergeSort (leByRecency h)

/-- Helper: a two-element merge sort compares the two elements once. -/
theorem mergeSortPair {A : Type} (le : A → A → Bool) (a b : A) :
    [a, b].mergeSort le = if le a b then [a, b] else [b, a] := by
  rw [List.mergeSort]
  simp [List.merge]

/-- Helper: the induced recency order is transitive. -/
theorem leByRecency_trans (h : History) (a b c : Project) :
    leByRecency h a b = true → leByRecency h b c = true → leByRecency h a c = true := by
  simp only [leByRecency, Bool.not_eq_true', lessByRecency]
  rcases ha : accessTime h a.path with _ | ta <;>
    rcases hb : accessTime h b.path with _ | tb <;>
    rcases hc : accessTime h c.path with _ | tc
  · exact fun h1 h2 => charListLt_le_trans _ _ _ h1 h2
  · intro _ _; rfl
  · intro h1 h2; simp at h2
  · intro _ _; rfl
  · intro h1 _; simp at h1
  · intro h1 _; simp at h1
  · intro _ h2; simp at h2
  · simp only [decide_eq_false_iff_not]
    intro h1 h2
    omega

/-- Helper: the induced recency order is total. -/
theorem leByRecency_total (h : History) (a b : Project) :
    (leByRecency h a b || leByRecency h b a) = true := by
  simp only [leByRecency, Bool.or_eq_true, Bool.not_eq_true', lessByRecency]
  rcases ha : accessTime h a.path with _ | ta <;> rcases hb : accessTime h b.path with _ | tb
  · exact (charListLt_total b.name.data a.name.data).elim Or.inl Or.inr
  · left; rfl
  · right; rfl
  · simp only [decide_eq_false_iff_not]
    omega

/-- C4: SortByRecencyWith is a stable sort whose comparator puts the
earlier-accessed of two visited entries first, puts an unvisited entry
before any visited one, and orders two unvisited entries lexicographically
by name; the comparator cases are exactly as described, any sorted sublist
of the input survives in order (stability), the output is a permutation
sorted by the comparator, and the two-element no-history example sorts to
alphabetical order from either input order. -/
theorem sortByRecency_spec :
    (∀ (h : History) (ps : List Project), (SortByRecencyWith h ps).Perm ps) ∧
    (∀ (h : History) (ps : List Project),
      (SortByRecencyWith h ps).Pairwise (fun a b => lessByRecency h b a = false)) ∧
    (∀ (h : History) (ps c : List Project),
      c.Pairwise (fun a b => leByRecency h a b = true) → c.Sublist ps →
      c.Sublist (SortByRecencyWith h ps)) ∧
    (∀ (h : History) (a b : Project) (ta tb : Int),
      accessTime h a.path = some ta → accessTime h b.path = some tb →
      (lessByRecency h a b = true ↔ ta < tb)) ∧
    (∀ (h : History) (a b : Project),
      accessTime h a.path = none → accessTime h b.path ≠ none → lessByRecency h a b = true) ∧
    (∀ (h : History) (a b : Project),
      accessTime h a.path ≠ none → accessTime h b.path = none → lessByRecency h a b = false) ∧
    (∀ (h : History) (a b : Project),
      accessTime h a.path = none → accessTime h b.path = none →
      lessByRecency h a b = strLt a.name b.name) ∧
    (SortByRecencyWith ⟨[]⟩ [⟨"b", "/b"⟩, ⟨"a", "/a"⟩] = [⟨"a", "/a"⟩, ⟨"b", "/b"⟩]) ∧
    (SortByRecencyWith ⟨[]⟩ [⟨"a", "/a"⟩, ⟨"b", "/b"⟩] = [⟨"a", "/a"⟩, ⟨"b", "/b"⟩]) := by
  refine ⟨?_, ?_, ?_, ?_, ?_, ?_, ?_,
    by rw [SortByRecencyWith, mergeSortPair]; decide,
    by rw [SortByRecencyWith, mergeSortPair]; decide⟩
  · intro h ps
    exact List.mergeSort_perm ps (leByRecency h)
  · intro h ps
    have hs := @List.sorted_mergeSort Project (leByRecency h)
      (fun a b c => leByRecency_trans h a b c) (fun a b => leByRecency_total h a b) ps
    exact hs.imp (fun hab => by simpa [leByRecency, Bool.not_eq_true'] using hab)
  · intro h ps c hc hsub
    exact List.sublist_mergeSort (fun a b c => leByRecency_trans h a b c)
      (fun a b => leByRecency_total h a b) hc hsub
  · intro h a b ta tb hta htb
    simp [lessByRecency, hta, htb]
  · intro h a b hta htb
    rcases hb : accessTime h b.path with _ | tb
    · exact absurd hb htb
    · simp [lessByRecency, hta, hb]
  · intro h a b hta htb
    rcases ha : accessTime h a.path with _ | ta
    · exact absurd ha hta
    · simp [lessByRecency, ha, htb]
  · intro h a b hta htb
    simp [lessByRecency, hta, htb, strLt]

/-- Witness for C4: with history entries for /old and /new, the comparator
orders /old strictly before /new. -/
theorem sortByRecency_spec_witness :
    lessByRecency ⟨[⟨"/old", 1000⟩, ⟨"/new", 3000⟩]⟩ ⟨"o", "/old"⟩ ⟨"n", "/new"⟩ = true :=
  (sortByRecency_spec.2.2.2.1 ⟨[⟨"/old", 1000⟩, ⟨"/new", 3000⟩]⟩ ⟨"o", "/old"⟩ ⟨"n", "/new"⟩
    1000 3000 (by decide) (by decide)).mpr (by decide)

/-- ExpandedProject from project.go: a display name, the full path, the base
project name and the worktree flag. -/
structure ExpandedProject where
  name : String
  path : String
  projectName : String
  isWorktree : Bool
deriving Repr, DecidableEq, Inhabited

/-- Model of Go path/filepath.Dir for the slash-separated paths this engine
produces (no repeated separators, no dot segments): everything up to and
including the last slash, cleaned of the trailing slash; "." when there
is no slash at all and "/" for the root. -/
def filepathDir (path : String) : String :=
  let kept := (path.data.reverse.dropWhile (fun c => c != '/')).reverse
  let trimmed := (kept.reverse.dropWhile (fun c => c == '/')).reverse
  if trimmed.isEmpty then (if kept.isEmpty then "." else "/")
  else String.mk trimmed

/-- Model of Go path/filepath.Base under the same assumptions: the last path
segment, "/" for the root and "." for the empty string. -/
def filepathBase (path : String) : String :=
  if path = "" then "."
  else
    let stripped := path.data.reverse.dropWhile (fun c => c == '/')
    if stripped.isEmpty then "/"
    else String.mk (stripped.takeWhile (fun c => c != '/')).reverse

/-- Count of the slash-separated components of a name: models the length of
strings.Split(name, "/") for the single-character separator, which is the
number of slashes plus one. -/
def nameSegmentCount (name : String) : Nat :=
  (name.data.filter (fun c => c == '/')).length + 1

/-- Iterated filepath.Dir. -/
def iterDir : Nat → String → String
  | 0, p => p
  | n + 1, p => iterDir n (filepathDir p)

/-- parentDir from disambiguate.go: apply filepath.Dir once per
slash-separated component of the name. -/
def parentDir (path name : String) : String :=
  iterDir (nameSegmentCount name) path

/-- Loop body of splitParentSegments from disambiguate.go, with explicit
fuel: the Go loop terminates because Dir shortens its argument (or the
parent-equals-dir break fires), and the initial fuel of length + 1 always
covers every iteration. -/
def splitParentSegmentsAux : Nat → String → List String
  | 0, _ => []
  | fuel + 1, dir =>
    if dir = "/" ∨ dir = "." ∨ dir = "" then []
    else
      let b := filepathBase dir
      let parent := filepathDir dir
      if parent = dir then [b]
      else b :: splitParentSegmentsAux fuel parent

/-- splitParentSegments from disambiguate.go: the directory's segments from
innermost to outermost. -/
def splitParentSegments (dir : String) : List String :=
  splitParentSegmentsAux (dir.length + 1) dir

/-- State of one member of a colliding name group inside disambiguateGroup:
the item index, its original name, its parent segments (innermost first),
whether phase 1 already resolved it, the phase-1 suffix and the phase-2
compound disambiguator. -/
structure GroupMember where
  index : Nat
  origName : String
  segments : List String
  resolved : Bool
  suffix : Option String
  disambig : String
deriving Repr, DecidableEq

/-- One level of phase 1 of disambiguateGroup: among still unresolved
members, a member whose segment value at this level occurs exactly once
is resolved with that single segment. -/
def phase1Step (ms : List GroupMember) (level : Nat) : List GroupMember :=
  let cnt : String → Nat := fun s =>
    (ms.filter (fun m => !m.resolved && m.segments.get? level == some s)).length
  ms.map fun m =>
    if !m.resolved then
      match m.segments.get? level with
      | some s => if cnt s = 1 then { m with resolved := true, suffix := some s } else m
      | none => m
    else m

/-- The phase-1 level loop of disambiguateGroup: walk levels while any
member is unresolved. -/
def phase1Loop : Nat → Nat → List GroupMember → List GroupMember
  | 0, _, ms => ms
  | fuel + 1, level, ms =>
    if ms.all (fun m => m.resolved) then ms
    else phase1Loop fuel (level + 1) (phase1Step ms level)

/-- One level of phase 2 of disambiguateGroup: prepend this level's segment
to the compound disambiguator of every unresolved member that still has a
segment at this level. -/
def phase2Step (ms : List GroupMember) (level : Nat) : List GroupMember :=
  ms.map fun m =>
    if !m.resolved then
      match m.segments.get? level with
      | some s =>
        { m with disambig := if m.disambig = "" then s else s ++ "/" ++ m.disambig }
      | none => m
    else m

/-- The all-unique check of phase 2: every unresolved member's compound
value occurs exactly once among unresolved members. -/
def phase2AllUnique (ms : List GroupMember) : Bool :=
  ms.all fun m =>
    m.resolved ||
      ((ms.filter (fun m2 => !m2.resolved && m2.disambig == m.disambig)).length == 1)

/-- The phase-2 level loop of disambiguateGroup: stop when the unresolved
members have exhausted their segments or their compound values became
pairwise unique. -/
def phase2Loop : Nat → Nat → List GroupMember → List GroupMember
  | 0, _, ms => ms
  | fuel + 1, level, ms =>
    if ms.all (fun m => m.resolved || (m.segments.get? level).isNone) then ms
    else
      let ms2 := phase2Step ms level
      if phase2AllUnique ms2 then ms2
      else phase2Loop fuel (level + 1) ms2

/-- The deepest member's segment count, the level bound of both phases. -/
def maxSegLevels (ms : List GroupMember) : Nat :=
  ms.foldl (fun acc m => max acc m.segments.length) 0

/-- The initial group state of disambiguateGroup from disambiguate.go: one
member per index, holding the item's name and its parent segments. -/
def groupInitState (items : List ExpandedProject) (indices : List Nat) : List GroupMember :=
  indices.map fun idx =>
    let it := items.getD idx default
    { index := idx, origName := it.name,
      segments := splitParentSegments (parentDir it.path it.name),
      resolved := false, suffix := none, disambig := "" }

/-- The state of a group after both phases of disambiguateGroup: phase 1
resolves members with a unique single segment per level; phase 2 runs
only when unresolved members remain. -/
def groupFinalState (items : List ExpandedProject) (indices : List Nat) : List GroupMember :=
  let ms0 := groupInitState items indices
  let maxLevels := maxSegLevels ms0
  let ms1 := phase1Loop maxLevels 0 ms0
  if (ms1.filter (fun m => m.resolved)).length < ms1.length then phase2Loop maxLevels 0 ms1
  else ms1

/-- disambiguateGroup from disambiguate.go, reformulated to return the list
of (index, new name) renamings instead of mutating in place: a phase-1
resolved member gets its single segment in parentheses, an unresolved
member with a non-empty compound gets the compound in parentheses. -/
def disambiguateGroup (items : List ExpandedProject) (indices : List Nat) : List (Nat × String) :=
  let ms2 := groupFinalState items indices
  (ms2.filterMap fun m =>
    match m.suffix with
    | some s => some (m.index, m.origName ++ " (" ++ s ++ ")")
    | none => none) ++
  (ms2.filterMap fun m =>
    if !m.resolved && m.disambig != "" then
      some (m.index, m.origName ++ " (" ++ m.disambig ++ ")")
    else none)

/-- State of one member of a colliding group inside
disambiguateGroupFullPath: the item index, its parent segments and its
current (growing) name. -/
structure FullPathMember where
  index : Nat
  segments : List String
  name : String
deriving Repr, DecidableEq

/-- One level of disambiguateGroupFullPath: every member that still has a
segment at this level prepends it to its current name. -/
def fullPathStep (ms : List FullPathMember) (level : Nat) : List FullPathMember :=
  ms.map fun m =>
    match m.segments.get? level with
    | some s => { m with name := s ++ "/" ++ m.name }
    | none => m

/-- The all-unique check of disambiguateGroupFullPath over the whole group. -/
def fullPathAllUnique (ms : List FullPathMember) : Bool :=
  ms.all fun m => (ms.filter (fun m2 => m2.name == m.name)).length == 1

/-- The level loop of disambiguateGroupFullPath: apply a level, stop as soon
as the names are pairwise unique. -/
def fullPathLoop : Nat → Nat → List FullPathMember → List FullPathMember
  | 0, _, ms => ms
  | fuel + 1, level, ms =>
    let ms2 := fullPathStep ms level
    if fullPathAllUnique ms2 then ms2
    else fullPathLoop fuel (level + 1) ms2

/-- The initial group state of disambiguateGroupFullPath: one member per
index, holding the item's name and its parent segments. -/
def fullPathInitState (items : List ExpandedProject) (indices : List Nat) :
    List FullPathMember :=
  indices.map fun idx =>
    let it := items.getD idx default
    { index := idx, segments := splitParentSegments (parentDir it.path it.name), name := it.name }

/-- disambiguateGroupFullPath from disambiguate.go, reformulated to return
the (index, new name) renamings. -/
def disambiguateGroupFullPath (items : List ExpandedProject) (indices : List Nat) :
    List (Nat × String) :=
  let ms0 := fullPathInitState items indices
  let maxLevels := ms0.foldl (fun acc m => max acc m.segments.length) 0
  (fullPathLoop maxLevels 0 ms0).map fun m => (m.index, m.name)

/-- First-occurrence-order deduplication of the name list, with a seen
accumulator; gives the processing order of the Go name groups (the Go map
iteration order is immaterial because groups touch disjoint indices). -/
def dedupKeysAux : List String → List String → List String
  | _, [] => []
  | seen, n :: rest =>
    if seen.contains n then dedupKeysAux seen rest
    else n :: dedupKeysAux (n :: seen) rest

/-- The distinct names in first-occurrence order. -/
def dedupKeys (l : List String) : List String := dedupKeysAux [] l

/-- Positions (from offset j) of the items carrying a given name; this is
the groups map of DisambiguateNames from disambiguate.go. -/
def idxOfName : List ExpandedProject → Nat → String → List Nat
  | [], _, _ => []
  | x :: xs, j, n => if x.name == n then j :: idxOfName xs (j + 1) n else idxOfName xs (j + 1) n

/-- Apply the collected (index, new name) renamings: position j + i of the
result carries the looked-up name when present, everything else is kept.
Each index is renamed at most once, so first-match lookup is faithful to
the sequential Go mutation. -/
def applyNameUpdates : Nat → List (Nat × String) → List ExpandedProject → List ExpandedProject
  | _, _, [] => []
  | j, us, x :: xs =>
    (match us.lookup j with
     | some n => { x with name := n }
     | none => x) :: applyNameUpdates (j + 1) us xs

/-- The renamings collected over all colliding name groups: singleton groups
contribute nothing, the others go through the strategy's group function. -/
def disambiguateUpdates (items : List ExpandedProject) (strategy : String) : List (Nat × String) :=
  (dedupKeys (items.map (fun it => it.name))).flatMap fun n =>
    let indices := idxOfName items 0 n
    if indices.length ≤ 1 then []
    else if strategy = "full_path" then disambiguateGroupFullPath items indices
    else disambiguateGroup items indices

/-- DisambiguateNames from disambiguate.go: group item positions by name,
leave singleton groups untouched, compute each colliding group's
renamings under the selected strategy, and apply them all. -/
def DisambiguateNames (items : List ExpandedProject) (strategy : String) : List ExpandedProject :=
  applyNameUpdates 0 (disambiguateUpdates items strategy) items

/-- C3: under the first_unique_segment strategy, four entries named d at
/a/c/d, /b/c/d, /a/e/d and /b/e/d have no ancestor level giving any member
a unique single segment, so the compound fallback progressively prepends
each level's segment until the compounds are pairwise unique, renaming
them to d (a/c), d (b/c), d (a/e) and d (b/e). -/
theorem disambiguate_compound_fallback :
    DisambiguateNames
      [⟨"d", "/a/c/d", "d", false⟩, ⟨"d", "/b/c/d", "d", false⟩,
       ⟨"d", "/a/e/d", "d", false⟩, ⟨"d", "/b/e/d", "d", false⟩]
      "first_unique_segment" =
      [⟨"d (a/c)", "/a/c/d", "d", false⟩, ⟨"d (b/c)", "/b/c/d", "d", false⟩,
       ⟨"d (a/e)", "/a/e/d", "d", false⟩, ⟨"d (b/e)", "/b/e/d", "d", false⟩] := by
  decide

theorem applyNameUpdates_forall2 (us : List (Nat × String)) :
    ∀ (items : List ExpandedProject) (j : Nat),
      List.Forall₂ (fun x y => y.path = x.path ∧ y.projectName = x.projectName ∧
        y.isWorktree = x.isWorktree) items (applyNameUpdates j us items)
  | [], _ => List.Forall₂.nil
  | x :: xs, j => by
    rw [applyNameUpdates]
    refine List.Forall₂.cons ?_ (applyNameUpdates_forall2 us xs (j + 1))
    cases us.lookup j <;> exact ⟨rfl, rfl, rfl⟩

theorem applyNameUpdates_getElem? (us : List (Nat × String)) :
    ∀ (items : List ExpandedProject) (j i : Nat),
      (applyNameUpdates j us items)[i]? =
        (items[i]?).map fun x =>
          match us.lookup (j + i) with
          | some n => { x with name := n }
          | none => x
  | [], j, i => by simp [applyNameUpdates]
  | x :: xs, j, 0 => by simp [applyNameUpdates]
  | x :: xs, j, i + 1 => by
    rw [applyNameUpdates]
    simp only [List.getElem?_cons_succ]
    rw [applyNameUpdates_getElem? us xs (j + 1) i]
    have harith : j + 1 + i = j + (i + 1) := by omega
    rw [harith]

theorem lookup_eq_none_of_not_mem {B : Type} (k : Nat) :
    ∀ (us : List (Nat × B)), (∀ p ∈ us, p.1 ≠ k) → us.lookup k = none
  | [], _ => rfl
  | (a, b) :: rest, h => by
    rw [List.lookup]
    have hne : (k == a) = false := by
      simp only [beq_eq_false_iff_ne, ne_eq]
      exact fun he => (h (a, b) (List.mem_cons_self _ _)) he.symm
    rw [hne]
    exact lookup_eq_none_of_not_mem k rest (fun p hp => h p (List.mem_cons_of_mem _ hp))

theorem mem_idxOfName (n : String) :
    ∀ (items : List ExpandedProject) (j k : Nat), k ∈ idxOfName items j n →
      ∃ m x, k = j + m ∧ items[m]? = some x ∧ x.name = n := by
  intro items
  induction items with
  | nil => intro j k h; cases h
  | cons x xs ih =>
    intro j k h
    rw [idxOfName] at h
    by_cases he : (x.name == n) = true
    · rw [if_pos he] at h
      rcases List.mem_cons.mp h with rfl | h'
      · exact ⟨0, x, by omega, by simp, by simpa using he⟩
      · obtain ⟨m, y, hk, hg, hn⟩ := ih (j + 1) k h'
        exact ⟨m + 1, y, by omega, by simpa using hg, hn⟩
    · rw [if_neg he] at h
      obtain ⟨m, y, hk, hg, hn⟩ := ih (j + 1) k h
      exact ⟨m + 1, y, by omega, by simpa using hg, hn⟩

theorem idxOfName_length (n : String) :
    ∀ (items : List ExpandedProject) (j : Nat),
      (idxOfName items j n).length = (items.map (fun it => it.name)).count n := by
  intro items
  induction items with
  | nil => intro j; rfl
  | cons x xs ih =>
    intro j
    rw [idxOfName, List.map_cons, List.count_cons]
    by_cases he : (x.name == n) = true
    · rw [if_pos he, List.length_cons, ih (j + 1), he]
      simp
    · rw [if_neg he, ih (j + 1)]
      simp [he]

theorem phase1Step_indices (ms : List GroupMember) (level : Nat) :
    (phase1Step ms level).map (fun m => m.index) = ms.map (fun m => m.index) := by
  rw [phase1Step, List.map_map]
  apply List.map_congr_left
  intro m _
  simp only [Function.comp]
  split
  · split
    · split <;> rfl
    · rfl
  · rfl

theorem phase1Loop_indices :
    ∀ (fuel level : Nat) (ms : List GroupMember),
      (phase1Loop fuel level ms).map (fun m => m.index) = ms.map (fun m => m.index)
  | 0, _, _ => rfl
  | fuel + 1, level, ms => by
    rw [phase1Loop]
    split
    · rfl
    · rw [phase1Loop_indices fuel (level + 1) (phase1Step ms level), phase1Step_indices]

theorem phase2Step_indices (ms : List GroupMember) (level : Nat) :
    (phase2Step ms level).map (fun m => m.index) = ms.map (fun m => m.index) := by
  rw [phase2Step, List.map_map]
  apply List.map_congr_left
  intro m _
  simp only [Function.comp]
  split
  · split <;> rfl
  · rfl

theorem phase2Loop_indices :
    ∀ (fuel level : Nat) (ms : List GroupMember),
      (phase2Loop fuel level ms).map (fun m => m.index) = ms.map (fun m => m.index)
  | 0, _, _ => rfl
  | fuel + 1, level, ms => by
    simp only [phase2Loop]
    split
    · rfl
    · split
      · rw [phase2Step_indices]
      · rw [phase2Loop_indices fuel (level + 1) (phase2Step ms level), phase2Step_indices]

theorem groupInitState_indices (items : List ExpandedProject) (indices : List Nat) :
    (groupInitState items indices).map (fun m => m.index) = indices := by
  rw [groupInitState, List.map_map]
  exact List.map_id'' (fun idx => rfl) indices

theorem groupFinalState_indices (items : List ExpandedProject) (indices : List Nat) :
    (groupFinalState items indices).map (fun m => m.index) = indices := by
  simp only [groupFinalState]
  split
  · rw [phase2Loop_indices, phase1Loop_indices, groupInitState_indices]
  · rw [phase1Loop_indices, groupInitState_indices]

theorem disambiguateGroup_indices (items : List ExpandedProject) (indices : List Nat) :
    ∀ pr ∈ disambiguateGroup items indices, pr.1 ∈ indices := by
  intro pr hpr
  simp only [disambiguateGroup] at hpr
  have hidx : ∀ m : GroupMember, m ∈ groupFinalState items indices → m.index ∈ indices := by
    intro m hm
    rw [← groupFinalState_indices items indices]
    exact List.mem_map_of_mem _ hm
  rcases List.mem_append.mp hpr with h | h
  · obtain ⟨m, hm, hfm⟩ := List.mem_filterMap.mp h
    cases hs : m.suffix with
    | none => rw [hs] at hfm; cases hfm
    | some sgl =>
      rw [hs] at hfm
      cases hfm
      exact hidx m hm
  · obtain ⟨m, hm, hfm⟩ := List.mem_filterMap.mp h
    split at hfm
    · cases hfm
      exact hidx m hm
    · cases hfm

theorem fullPathStep_indices (ms : List FullPathMember) (level : Nat) :
    (fullPathStep ms level).map (fun m => m.index) = ms.map (fun m => m.index) := by
  rw [fullPathStep, List.map_map]
  apply List.map_congr_left
  intro m _
  simp only [Function.comp]
  split <;> rfl

theorem fullPathLoop_indices :
    ∀ (fuel level : Nat) (ms : List FullPathMember),
      (fullPathLoop fuel level ms).map (fun m => m.index) = ms.map (fun m => m.index)
  | 0, _, _ => rfl
  | fuel + 1, level, ms => by
    simp only [fullPathLoop]
    split
    · rw [fullPathStep_indices]
    · rw [fullPathLoop_indices fuel (level + 1) (fullPathStep ms level), fullPathStep_indices]

theorem fullPathInitState_indices (items : List ExpandedProject) (indices : List Nat) :
    (fullPathInitState items indices).map (fun m => m.index) = indices := by
  rw [fullPathInitState, List.map_map]
  exact List.map_id'' (fun idx => rfl) indices

theorem disambiguateGroupFullPath_indices (items : List ExpandedProject) (indices : List Nat) :
    ∀ pr ∈ disambiguateGroupFullPath items indices, pr.1 ∈ indices := by
  intro pr hpr
  simp only [disambiguateGroupFullPath] at hpr
  obtain ⟨m, hm, hfm⟩ := List.mem_map.mp hpr
  cases hfm
  have hmi := List.mem_map_of_mem (fun m => m.index) hm
  rw [fullPathLoop_indices, fullPathInitState_indices] at hmi
  exact hmi

theorem disambiguateUpdates_mem (items : List ExpandedProject) (strategy : String) :
    ∀ pr ∈ disambiguateUpdates items strategy,
      ∃ n, pr.1 ∈ idxOfName items 0 n ∧ 1 < (idxOfName items 0 n).length := by
  intro pr hpr
  simp only [disambiguateUpdates] at hpr
  obtain ⟨n, hn, hpr2⟩ := List.mem_flatMap.mp hpr
  refine ⟨n, ?_⟩
  by_cases hlen : (idxOfName items 0 n).length ≤ 1
  · rw [if_pos hlen] at hpr2
    cases hpr2
  · rw [if_neg hlen] at hpr2
    refine ⟨?_, by omega⟩
    split at hpr2
    · exact disambiguateGroupFullPath_indices items _ pr hpr2
    · exact disambiguateGroup_indices items _ pr hpr2

/-- C9: for every input list and every strategy string, DisambiguateNames
mutates only the Name field: each position keeps its Path, ProjectName and
IsWorktree values, the length (and hence the element order, the relation
being positionwise) is unchanged, and an element whose Name is unique in
the input keeps its entire value, Name included. -/
theorem disambiguateNames_frame (items : List ExpandedProject) (strategy : String) :
    List.Forall₂ (fun x y => y.path = x.path ∧ y.projectName = x.projectName ∧
      y.isWorktree = x.isWorktree) items (DisambiguateNames items strategy) ∧
    (DisambiguateNames items strategy).length = items.length ∧
    (∀ (i : Nat) (x : ExpandedProject), items[i]? = some x →
      (items.map (fun it => it.name)).count x.name = 1 →
      (DisambiguateNames items strategy)[i]? = some x) := by
  have hf2 := applyNameUpdates_forall2 (disambiguateUpdates items strategy) items 0
  refine ⟨hf2, (List.Forall₂.length_eq hf2).symm, ?_⟩
  intro i x hget hcount
  rw [DisambiguateNames, applyNameUpdates_getElem?]
  have hnone : (disambiguateUpdates items strategy).lookup (0 + i) = none := by
    apply lookup_eq_none_of_not_mem
    intro p hp hpi
    obtain ⟨n, hmem, hlen⟩ := disambiguateUpdates_mem items strategy p hp
    rw [hpi] at hmem
    obtain ⟨m, y, hkm, hgm, hyn⟩ := mem_idxOfName n items 0 (0 + i) hmem
    have hmi : m = i := by omega
    subst hmi
    rw [hget] at hgm
    cases hgm
    rw [idxOfName_length] at hlen
    rw [hyn] at hcount
    omega
  rw [hnone, hget]
  rfl

/-- Witness for C9: a uniquely named element is returned untouched, under
both strategies. -/
theorem disambiguateNames_frame_witness :
    (DisambiguateNames [⟨"a", "/x/a", "a", false⟩, ⟨"b", "/y/b", "b", false⟩]
      "first_unique_segment")[0]? = some ⟨"a", "/x/a", "a", false⟩ ∧
    (DisambiguateNames [⟨"a", "/x/a", "a", false⟩, ⟨"b", "/y/b", "b", false⟩]
      "full_path")[1]? = some ⟨"b", "/y/b", "b", false⟩ :=
  ⟨(disambiguateNames_frame [⟨"a", "/x/a", "a", false⟩, ⟨"b", "/y/b", "b", false⟩]
      "first_unique_segment").2.2 0 ⟨"a", "/x/a", "a", false⟩ rfl (by decide),
   (disambiguateNames_frame [⟨"a", "/x/a", "a", false⟩, ⟨"b", "/y/b", "b", false⟩]
      "full_path").2.2 1 ⟨"b", "/y/b", "b", false⟩ rfl (by decide)⟩

/-- A directory listing entry as returned by ReadDir; the cache code only
reads the name (the directory check goes through Stat, following
symlinks, exactly as the Go code does). -/
structure DirEntry where
  name : String
deriving Repr, DecidableEq

/-- The filesystem dependency of the config package, restricted to the two
calls the cache mtime collection makes; none models an error return. -/
structure FS where
  stat : String → Option FileInfo
  readDir : String → Option (List DirEntry)

/-- Split a character list on a separator: models strings.Split for the
single-character separator. -/
def splitOnChar (sep : Char) : List Char → List (List Char)
  | [] => [[]]
  | c :: rest =>
    let r := splitOnChar sep rest
    if c == sep then [] :: r
    else
      match r with
      | [] => [[c]]
      | h :: t => (c :: h) :: t

/-- countWildcardDepth from the config package: the number of
slash-separated pattern segments that contain a star. -/
def countWildcardDepth (pattern : String) : Nat :=
  ((splitOnChar '/' pattern.data).filter (fun seg => seg.contains '*')).length

/-- collectChildDirMtimes from the config package with the remaining depth
first: record the mtime of every listed entry that stats as a directory
and recurse while more than one level remains; filepath.Join is modelled
as slash concatenation for the clean paths this engine produces. -/
def collectChildDirMtimes (fs : FS) : Nat → String → List (String × Int)
  | 0, _ => []
  | rd + 1, dir =>
    match fs.readDir dir with
    | none => []
    | some entries =>
      entries.flatMap fun e =>
        match fs.stat (dir ++ "/" ++ e.name) with
        | none => []
        | some info =>
          if info.isDir then
            (dir ++ "/" ++ e.name, info.modTime) ::
              (if rd + 1 > 1 then collectChildDirMtimes fs rd (dir ++ "/" ++ e.name) else [])
          else []

/-- collectDirMtimes from the config package: the base directory's mtime
plus, exactly when the pattern's wildcard depth exceeds one, the child
mtimes recursively collected down to depth - 1 levels. -/
def collectDirMtimes (fs : FS) (resolvedBase : String) (pattern : String) :
    List (String × Int) :=
  let baseRec :=
    match fs.stat resolvedBase with
    | some info => [(resolvedBase, info.modTime)]
    | none => []
  let depth := countWildcardDepth pattern
  baseRec ++ (if depth > 1 then collectChildDirMtimes fs (depth - 1) resolvedBase else [])

/-- Helper: everything recorded by the child collection stats as a
directory with exactly the recorded mtime. -/
theorem mem_collectChildDirMtimes (fs : FS) :
    ∀ (rd : Nat) (dir p : String) (t : Int), (p, t) ∈ collectChildDirMtimes fs rd dir →
      ∃ info, fs.stat p = some info ∧ info.isDir = true ∧ info.modTime = t := by
  intro rd
  induction rd with
  | zero => intro dir p t h; cases h
  | succ rd ih =>
    intro dir p t h
    rw [collectChildDirMtimes] at h
    cases hrd : fs.readDir dir with
    | none => rw [hrd] at h; cases h
    | some entries =>
      rw [hrd] at h
      obtain ⟨e, he, hin⟩ := List.mem_flatMap.mp h
      cases hstat : fs.stat (dir ++ "/" ++ e.name) with
      | none => rw [hstat] at hin; cases hin
      | some info =>
        simp only [hstat] at hin
        by_cases hdir : info.isDir = true
        · rw [if_pos hdir] at hin
          rcases List.mem_cons.mp hin with heq | hin2
          · cases heq
            exact ⟨info, hstat, hdir, rfl⟩
          · split at hin2
            · exact ih _ p t hin2
            · cases hin2
        · rw [if_neg hdir] at hin
          cases hin

/-- C6: with a base that stats successfully, the recomputed dirMtimes map
contains the resolved base directory's mtime; when the pattern's wildcard
depth is at most 1 it contains nothing else; when the depth exceeds 1 it
additionally contains exactly the child directory mtimes recursively
collected down to depth - 1; and the child collection never records
anything that is not a directory. -/
theorem collectDirMtimes_spec (fs : FS) (base pattern : String) (binfo : FileInfo)
    (hbase : fs.stat base = some binfo) :
    ((base, binfo.modTime) ∈ collectDirMtimes fs base pattern) ∧
    (countWildcardDepth pattern ≤ 1 →
      collectDirMtimes fs base pattern = [(base, binfo.modTime)]) ∧
    (1 < countWildcardDepth pattern →
      collectDirMtimes fs base pattern =
        (base, binfo.modTime) ::
          collectChildDirMtimes fs (countWildcardDepth pattern - 1) base) ∧
    (∀ (rd : Nat) (dir p : String) (t : Int), (p, t) ∈ collectChildDirMtimes fs rd dir →
      ∃ info, fs.stat p = some info ∧ info.isDir = true ∧ info.modTime = t) := by
  refine ⟨?_, ?_, ?_, mem_collectChildDirMtimes fs⟩
  · simp only [collectDirMtimes, hbase]
    exact List.mem_append_left _ (List.mem_singleton.mpr rfl)
  · intro hd
    simp only [collectDirMtimes, hbase]
    rw [if_neg (by omega)]
    simp
  · intro hd
    simp only [collectDirMtimes, hbase]
    rw [if_pos (by omega)]
    rfl

/-- Concrete filesystem used by the C6 witness: a base directory with one
subdirectory and one plain file. -/
def fsC6 : FS where
  stat := fun p =>
    if p = "/base" then some ⟨true, 10⟩
    else if p = "/base/c1" then some ⟨true, 20⟩
    else if p = "/base/f" then some ⟨false, 30⟩
    else none
  readDir := fun p => if p = "/base" then some [⟨"c1"⟩, ⟨"f"⟩] else none

/-- Witness for C6: a single-star pattern records only the base, a two-star
pattern additionally records the subdirectory but never the plain file. -/
theorem collectDirMtimes_spec_witness :
    ("/base", 10) ∈ collectDirMtimes fsC6 "/base" "*/*" ∧
    collectDirMtimes fsC6 "/base" "*" = [("/base", 10)] ∧
    collectDirMtimes fsC6 "/base" "*/*" = [("/base", 10), ("/base/c1", 20)] :=
  ⟨(collectDirMtimes_spec fsC6 "/base" "*/*" ⟨true, 10⟩ (by decide)).1,
   (collectDirMtimes_spec fsC6 "/base" "*" ⟨true, 10⟩ (by decide)).2.1 (by decide),
   by
     rw [(collectDirMtimes_spec fsC6 "/base" "*/*" ⟨true, 10⟩ (by decide)).2.2.1 (by decide)]
     decide⟩

/-- Item from the ui package, together with the icon field select.go sets. -/
structure Item where
  name : String
  path : String
  context : String
  icon : String
deriving Repr, DecidableEq

/-- The tmuxSessionPathPrefix constant of the cmd package: the sentinel path
scheme marking standalone session items. -/
def tmuxSessionPathMarker : String := "tmux:"

/-- The directory-with-session icon of the cmd package. -/
def iconDirSession : String := "■"

/-- The standalone-session icon of the cmd package. -/
def iconStandaloneSession : String := "□"

/-- Model of strings.ReplaceAll for a single-character pattern and
replacement: a character-wise map. -/
def replaceChar (s : String) (old new : Char) : String :=
  String.mk (s.data.map (fun c => if c == old then new else c))

/-- sanitizeSessionName from select.go: dots and colons become underscores
for tmux compatibility. -/
def sanitizeSessionName (name : String) : String :=
  replaceChar (replaceChar name '.' '_') ':' '_'

/-- isStandaloneSession from the cmd package: the path carries the sentinel. -/
def isStandaloneSession (item : Item) : Bool :=
  strStartsWith item.path tmuxSessionPathMarker

/-- standaloneSessionName from the cmd package: strings.TrimPrefix on the
sentinel. -/
def standaloneSessionName (item : Item) : String :=
  if strStartsWith item.path tmuxSessionPathMarker then
    item.path.drop tmuxSessionPathMarker.length
  else item.path

/-- The getAccessTime closure of sortByUnifiedRecency from select.go:
filesystem history by path first (last entry wins, as in the Go map
build), then live session activity for standalone session items
(time.Unix on the epoch value is the identity in this integer model). -/
def unifiedAccessTime (hist : History) (sessionActivity : List (String × Int)) (item : Item) :
    Option Int :=
  match hist.entries.reverse.find? (fun e => e.path == item.path) with
  | some e => some e.lastAccess
  | none =>
    if isStandaloneSession item then
      match sessionActivity.lookup (standaloneSessionName item) with
      | some ts => some ts
      | none => none
    else none

/-- The sort.SliceStable comparator of sortByUnifiedRecency from select.go,
identical in shape to the history comparator. -/
def lessUnified (hist : History) (sessionActivity : List (String × Int)) (a b : Item) : Bool :=
  match unifiedAccessTime hist sessionActivity a, unifiedAccessTime hist sessionActivity b with
  | some ta, some tb => decide (ta < tb)
  | some _, none => false
  | none, some _ => true
  | none, none => strLt a.name b.name

/-- sortByUnifiedRecency from select.go: stable merge sort under the
induced non-strict order. -/
def sortByUnifiedRecency (items : List Item) (hist : History)
    (sessionActivity : List (String × Int)) : List Item :=
  items.mergeSort (fun a b => !(lessUnified hist sessionActivity b a))

/-- buildSessionAwareItemsWith from select.go: tag configured items whose
sanitized name has a live session with the directory icon, synthesize a
standalone item (sentinel path, standalone icon) for every live session
matching no configured item, and sort everything on the unified recency
timeline. -/
def buildSessionAwareItemsWith (baseItems : List Item) (hist : History)
    (sessionActivity : List (String × Int)) : List Item :=
  let projectSessionNames := baseItems.map (fun i => sanitizeSessionName i.name)
  let items := baseItems.map fun i =>
    if (sessionActivity.lookup (sanitizeSessionName i.name)).isSome then
      { i with icon := iconDirSession }
    else { i with icon := "" }
  let standalone := sessionActivity.filterMap fun p =>
    if projectSessionNames.contains p.1 then none
    else
      some { name := p.1, path := tmuxSessionPathMarker ++ p.1, context := "",
             icon := iconStandaloneSession }
  sortByUnifiedRecency (items ++ standalone) hist sessionActivity

/-- Helper: a three-element merge sort, fully expanded. -/
theorem mergeSortTriple {A : Type} (le : A → A → Bool) (a b c : A) :
    [a, b, c].mergeSort le =
      if le a b then
        if le a c then (if le b c then [a, b, c] else [a, c, b])
        else [c, a, b]
      else
        if le b c then (if le a c then [b, a, c] else [b, c, a])
        else [c, b, a] := by
  rw [List.mergeSort]
  simp only [List.splitInTwo_fst, List.splitInTwo_snd]
  norm_num [mergeSortPair]
  split_ifs <;> simp_all [List.merge]

/-- C5: with history /old at 1000 and /new at 3000 and a live session
session-mid at 2000 matching no configured item, session unification
synthesizes a standalone item whose path is the sentinel "tmux:" followed
by the session name, and the unified ranking interleaves it between the
two filesystem entries: /old, session-mid, /new. -/
theorem sessionUnification_recency_merge :
    buildSessionAwareItemsWith
      [⟨"old", "/old", "", ""⟩, ⟨"new", "/new", "", ""⟩]
      ⟨[⟨"/old", 1000⟩, ⟨"/new", 3000⟩]⟩
      [("session-mid", 2000)] =
      [⟨"old", "/old", "", ""⟩,
       ⟨"session-mid", "tmux:session-mid", "", "□"⟩,
       ⟨"new", "/new", "", ""⟩] := by
  have h1 : buildSessionAwareItemsWith
      [⟨"old", "/old", "", ""⟩, ⟨"new", "/new", "", ""⟩]
      ⟨[⟨"/old", 1000⟩, ⟨"/new", 3000⟩]⟩
      [("session-mid", 2000)] =
      sortByUnifiedRecency
        [⟨"old", "/old", "", ""⟩, ⟨"new", "/new", "", ""⟩,
         ⟨"session-mid", "tmux:session-mid", "", "□"⟩]
        ⟨[⟨"/old", 1000⟩, ⟨"/new", 3000⟩]⟩ [("session-mid", 2000)] := rfl
  rw [h1, sortByUnifiedRecency, mergeSortTriple]
  decide
